import Mathlib
/-!
Verification of the feature-dashboard backend (Lane Ordering Engine and
Schema Migration Engine) against its specification.

The store is embedded as a `List Feature` in rowid (= `id`) order, mirroring
the single SQLite `features` table.  SQL queries are embedded as follows:

* `query.filter(...).first()` — `List.find?` (first row in scan order);
* `query.order_by(k.asc()).all()` — a stable sort by `k` (SQLite scans the
  `priority` index in key order and, within equal keys, in rowid order; on an
  id-ordered list a stable sort produces exactly that ordering);
* `query.order_by(k.desc()).first()` — the element with the maximal key,
  taking the latest one in scan order on ties (a backward index scan);
* `query.order_by(k.asc()).first()` — the element with the minimal key,
  taking the earliest one in scan order on ties.

The `modified_at` column is maintained by the store itself
(`onupdate=func.now()` in `api/database.py`) and is deliberately not part of
the embedded record: no endpoint logic reads or writes it.  Timestamps are
embedded as `Nat`, fallible endpoints return `Except ApiError`.
-/
namespace FeatureDashboard

/-- The `Feature` row of `api/database.py` (sans the store-managed
`modified_at`). `steps` is the JSON list column, `completed_at` is nullable. -/
structure Feature where
  id : Nat
  priority : Int
  category : String
  name : String
  description : String
  steps : List String
  passes : Bool
  in_progress : Bool
  created_at : Option Nat
  completed_at : Option Nat
deriving DecidableEq, Repr
/-- Error taxonomy of the HTTP layer: 404 not-found, 400 validation
(invalid direction / target not in lane / priority < 1), 400 lane mismatch,
400 edge-of-lane. -/
inductive ApiError where
  | notFound
  | validation
  | laneMismatch
  | edgeOfLane
deriving DecidableEq, Repr
/-- Two rows are in the same lane when they agree on `(passes, in_progress)` —
the filter used by `move_feature` and `reorder_feature` in `backend/main.py`. -/
def sameLane (f g : Feature) : Bool :=
  f.passes == g.passes && f.in_progress == g.in_progress
/-- Embedding of `session.query(Feature).filter(Feature.id == i).first()`. -/
def findFeature (s : List Feature) (i : Nat) : Option Feature :=
  s.find? (fun g => g.id == i)
/-- The row of `f :: l` with the maximal priority, preferring the later row on
ties. -/
def bestMax (f : Feature) : List Feature → Feature
  | [] => f
  | g :: rest => if (bestMax g rest).priority < f.priority then f else bestMax g rest
/-- The row of `f :: l` with the minimal priority, preferring the earlier row
on ties. -/
def bestMin (f : Feature) : List Feature → Feature
  | [] => f
  | g :: rest => if f.priority ≤ (bestMin g rest).priority then f else bestMin g rest
/-- Embedding of `.order_by(Feature.priority.desc()).first()`: the row with
the maximal priority, preferring the later row on ties (backward index scan). -/
def pickMaxPrio : List Feature → Option Feature
  | [] => none
  | f :: rest => some (bestMax f rest)
/-- Embedding of `.order_by(Feature.priority.asc()).first()`: the row with
the minimal priority, preferring the earlier row on ties (forward index scan). -/
def pickMinPrio : List Feature → Option Feature
  | [] => none
  | f :: rest => some (bestMin f rest)
/-- Embedding of `POST /api/features` (`create_feature` in `backend/main.py`):
priority is one plus the priority of the row returned by
`order_by(Feature.priority.desc()).first()`, or `1` when the store is empty;
the new row defaults to `passes=False`, `in_progress=False`, a fresh
`created_at` and a null `completed_at`.  The store assigns the next rowid. -/
def create_feature (s : List Feature) (category name description : String)
    (steps : List String) (now : Nat) : List Feature × Feature :=
  let next_priority : Int :=
    match pickMaxPrio s with
    | some g => g.priority + 1
    | none => 1
  let new_feature : Feature :=
    { id := (s.map Feature.id).foldr max 0 + 1
      priority := next_priority
      category := category
      name := name
      description := description
      steps := steps
      passes := false
      in_progress := false
      created_at := some now
      completed_at := none }
  (s ++ [new_feature], new_feature)
/-- Rows eligible as the `up` neighbor of `f`: same lane, strictly lower
priority (`Feature.priority < feature.priority` in `move_feature`). -/
def upCandidates (s : List Feature) (f : Feature) : List Feature :=
  s.filter (fun g => sameLane g f && decide (g.priority < f.priority))
/-- Rows eligible as the `down` neighbor of `f`: same lane, strictly higher
priority (`Feature.priority > feature.priority` in `move_feature`). -/
def downCandidates (s : List Feature) (f : Feature) : List Feature :=
  s.filter (fun g => sameLane g f && decide (f.priority < g.priority))
/-- The in-place swap `feature.priority, adjacent.priority =
adjacent.priority, feature.priority`, applied row-wise to the table. -/
def swapUpd (f a g : Feature) : Feature :=
  if g.id == f.id then { g with priority := a.priority }
  else if g.id == a.id then { g with priority := f.priority }
  else g
/-- Embedding of `PATCH /api/features/{id}/move` (`move_feature` in
`backend/main.py`): validate the direction token, look the row up, find the
nearest same-lane neighbor in the requested direction, and swap the two
priorities; no neighbor is the edge-of-lane failure. -/
def move_feature (s : List Feature) (feature_id : Nat) (direction : String) :
    Except ApiError (List Feature) :=
  if direction = "up" ∨ direction = "down" then
    (findFeature s feature_id).elim (.error .notFound) (fun feature =>
      ((if direction = "up" then pickMaxPrio (upCandidates s feature)
        else pickMinPrio (downCandidates s feature)).elim
        (.error .edgeOfLane)
        (fun adjacent => .ok (s.map (swapUpd feature adjacent)))))
  else .error .validation
/-- The ordering key of `order_by(Feature.priority.asc())`. -/
def prioLe (g h : Feature) : Prop := g.priority ≤ h.priority
instance : DecidableRel prioLe :=
  fun g h => inferInstanceAs (Decidable (g.priority ≤ h.priority))
instance : IsTotal Feature prioLe := ⟨fun g h => le_total g.priority h.priority⟩
instance : IsTrans Feature prioLe := ⟨fun _ _ _ h1 h2 => le_trans h1 h2⟩
/-- Embedding of the lane snapshot in `reorder_feature`:
`filter(same lane).order_by(Feature.priority.asc()).all()`, a stable sort of
the lane rows by priority. -/
def laneFeatures (s : List Feature) (f : Feature) : List Feature :=
  List.insertionSort prioLe (s.filter (fun g => sameLane g f))
/-- Row-wise effect of `for f, p in zip(ordered, priorities): f.priority = p`:
a row found in the zipped assignment list receives its paired priority. -/
def reassign (pairs : List (Feature × Int)) (g : Feature) : Feature :=
  (pairs.find? (fun p => p.1.id == g.id)).elim g (fun p => { g with priority := p.2 })
/-- Embedding of `PATCH /api/features/{id}/reorder` (`reorder_feature` in
`backend/main.py`): look up both rows, reject cross-lane pairs, snapshot the
lane in priority order, remove the dragged row, insert it at the target
position, and reassign the snapshot's priority values positionally. -/
def reorder_feature (s : List Feature) (feature_id target_id : Nat)
    (insert_before : Bool) : Except ApiError (List Feature) :=
  (findFeature s feature_id).elim (.error .notFound) (fun feature =>
    (findFeature s target_id).elim (.error .notFound) (fun target =>
      if feature.passes ≠ target.passes ∨ feature.in_progress ≠ target.in_progress then
        .error .laneMismatch
      else
        let lane := laneFeatures s feature
        let priorities := lane.map Feature.priority
        let ordered := lane.filter (fun g => g.id != feature_id)
        (ordered.findIdx? (fun g => g.id == target_id)).elim (.error .validation)
          (fun target_idx =>
            let insert_idx := if insert_before then target_idx else target_idx + 1
            .ok (s.map (reassign ((ordered.insertIdx insert_idx feature).zip priorities))))))

/-- Row-wise effect of the `PATCH /state` handler body: an explicit `passes`
value is written and stamps or clears `completed_at` unconditionally (there
is no transition check in `update_feature_state`); an explicit `in_progress`
value is then written. -/
def applyState (p ip : Option Bool) (now : Nat) (g : Feature) : Feature :=
  let g1 := p.elim g (fun b =>
    { g with passes := b, completed_at := if b then some now else none })
  ip.elim g1 (fun c => { g1 with in_progress := c })

/-- Embedding of `PATCH /api/features/{id}/state` (`update_feature_state` in
`backend/main.py`). -/
def update_feature_state (s : List Feature) (feature_id : Nat)
    (p ip : Option Bool) (now : Nat) : Except ApiError (List Feature) :=
  (findFeature s feature_id).elim (.error .notFound) (fun _ =>
    .ok (s.map (fun g => if g.id == feature_id then applyState p ip now g else g)))

/-- Boolean comparator behind `order_by(completed_at.desc().nulls_last())`:
later completion first, rows without a completion time last. -/
def doneLeB (g h : Feature) : Bool :=
  match g.completed_at, h.completed_at with
  | some a, some b => decide (b ≤ a)
  | some _, none => true
  | none, some _ => false
  | none, none => true

/-- The ordering key of `order_by(completed_at.desc().nulls_last())`. -/
def doneLe (g h : Feature) : Prop := doneLeB g h = true

instance : DecidableRel doneLe :=
  fun g h => inferInstanceAs (Decidable (doneLeB g h = true))

instance : IsTotal Feature doneLe :=
  ⟨fun g h => by
    unfold doneLe doneLeB
    rcases g.completed_at with _ | a <;> rcases h.completed_at with _ | b
    · simp
    · simp
    · simp
    · simp only [decide_eq_true_eq]
      omega⟩

instance : IsTrans Feature doneLe :=
  ⟨fun a b c hab hbc => by
    unfold doneLe doneLeB at hab hbc ⊢
    revert hab hbc
    rcases a.completed_at with _ | x <;> rcases b.completed_at with _ | y <;>
      rcases c.completed_at with _ | z <;> (intro hab hbc; simp_all) <;> omega⟩

/-- Embedding of `GET /api/features` (`get_features` in `backend/main.py`,
filter and ordering part; pagination slices the resulting list and is not
needed by any claim): apply the three optional filters, then order by
`completed_at` descending with nulls last when the query pins
`passes = true`, and by ascending `priority` otherwise. -/
def featQuery (s : List Feature) (passes in_progress : Option Bool)
    (category : Option String) : List Feature :=
  s.filter (fun g =>
    (passes.elim true (fun b => g.passes == b)) &&
    (in_progress.elim true (fun b => g.in_progress == b)) &&
    (category.elim true (fun c => g.category == c)))

def get_features (s : List Feature) (passes in_progress : Option Bool)
    (category : Option String) : List Feature :=
  if passes = some true then
    List.insertionSort doneLe (featQuery s passes in_progress category)
  else List.insertionSort prioLe (featQuery s passes in_progress category)

/-- Strict display order of the priority-sorted lanes: ascending priority,
ties broken by ascending id (the stable sort preserves rowid order). -/
def prioIdLt (g h : Feature) : Prop :=
  g.priority < h.priority ∨ (g.priority = h.priority ∧ g.id < h.id)

/-- The migration engine state: the `db_meta.schema_version` row plus the
physical schema, over an abstract schema type. -/
structure MigState (σ : Type) where
  schema_version : Nat
  db : σ
deriving DecidableEq, Repr

/-- Embedding of `run_migrations` in `api/database.py`: walk the registered
steps in list order, run every step whose version exceeds the recorded
`schema_version`, and commit the new version number after the step returns.
The result carries the final state, the committed version numbers in order,
and the error of the failing step if one raised; on a failure the recorded
version stays at the last committed value, because the
`UPDATE db_meta SET schema_version` only runs after the step body. -/
def stepResult {σ ε : Type} (st : MigState σ) (v : Nat) (res : Except ε σ)
    (k : MigState σ → MigState σ × List Nat × Option ε) :
    MigState σ × List Nat × Option ε :=
  match res with
  | .error e => (st, [], some e)
  | .ok d =>
    let r := k ⟨v, d⟩
    (r.1, v :: r.2.1, r.2.2)

def run_migrations {σ ε : Type} :
    List (Nat × (σ → Except ε σ)) → MigState σ → MigState σ × List Nat × Option ε
  | [], st => (st, [], none)
  | (v, f) :: rest, st =>
    if st.schema_version < v then stepResult st v (f st.db) (run_migrations rest)
    else run_migrations rest st

/-- A row of the physical `features` table as the migration steps see it:
raw nullable columns. -/
structure DbRow where
  passes : Option Bool
  in_progress : Option Bool
  created_at : Option Nat
  modified_at : Option Nat
  completed_at : Option Nat
deriving DecidableEq, Repr

/-- The physical schema: which optional columns exist
(`PRAGMA table_info(features)`), and the row contents. The base columns
(`id`, `priority`, ..., `passes`) always exist. -/
structure DbSchema where
  has_in_progress : Bool
  has_created_at : Bool
  has_modified_at : Bool
  has_completed_at : Bool
  rows : List DbRow
deriving DecidableEq, Repr

/-- Migration v1 (`_migration_v1`): add the `in_progress` column with
`DEFAULT 0` if it is missing; existing rows then read as false. Skips when
the column is already present. -/
def _migration_v1 (s : DbSchema) : Except Unit DbSchema :=
  if s.has_in_progress then .ok s
  else .ok { s with has_in_progress := true,
                    rows := s.rows.map (fun r => { r with in_progress := some false }) }

/-- Migration v2 (`_migration_v2`): `UPDATE ... SET passes = 0 WHERE passes
IS NULL` and the same for `in_progress`. Referencing a missing `in_progress`
column raises (the connection rolls back, so the step is all-or-nothing). -/
def fillBoolColumns (r : DbRow) : DbRow :=
  { r with passes := some (r.passes.getD false),
           in_progress := some (r.in_progress.getD false) }

def _migration_v2 (s : DbSchema) : Except Unit DbSchema :=
  if s.has_in_progress then
    .ok { s with rows := s.rows.map fillBoolColumns }
  else .error ()

/-- The `created_at` branch of `_migration_v3`: add the column if missing and
backfill every (then-NULL) row with the current time. -/
def addCreatedAtColumn (now : Nat) (s : DbSchema) : DbSchema :=
  if s.has_created_at then s
  else { s with has_created_at := true,
                rows := s.rows.map (fun r => { r with created_at := some now }) }

/-- The `modified_at` branch of `_migration_v3`. -/
def addModifiedAtColumn (now : Nat) (s : DbSchema) : DbSchema :=
  if s.has_modified_at then s
  else { s with has_modified_at := true,
                rows := s.rows.map (fun r => { r with modified_at := some now }) }

/-- The `completed_at` branch of `_migration_v3`: added without backfill, so
every pre-existing row reads NULL. -/
def addCompletedAtColumn (s : DbSchema) : DbSchema :=
  if s.has_completed_at then s
  else { s with has_completed_at := true,
                rows := s.rows.map (fun r => { r with completed_at := none }) }

/-- Migration v3 (`_migration_v3`): add the three timestamp columns, each
guarded by its own presence check. -/
def _migration_v3 (now : Nat) (s : DbSchema) : Except Unit DbSchema :=
  .ok (addCompletedAtColumn (addModifiedAtColumn now (addCreatedAtColumn now s)))

/-- The registered migration list `_MIGRATIONS` of `api/database.py`. -/
def _MIGRATIONS (now : Nat) : List (Nat × (DbSchema → Except Unit DbSchema)) :=
  [(1, _migration_v1), (2, _migration_v2), (3, fun s => _migration_v3 now s)]

/-- A todo-lane row with id 1 and the given priority, used by concrete
checks. -/
def rowA (p : Int) : Feature :=
  { id := 1, priority := p, category := "a", name := "A", description := "",
    steps := [], passes := false, in_progress := false,
    created_at := none, completed_at := none }

/-- A todo-lane row with id 2. -/
def rowB (p : Int) : Feature :=
  { id := 2, priority := p, category := "a", name := "B", description := "",
    steps := [], passes := false, in_progress := false,
    created_at := none, completed_at := none }

/-- A todo-lane row with id 3. -/
def rowC (p : Int) : Feature :=
  { id := 3, priority := p, category := "a", name := "C", description := "",
    steps := [], passes := false, in_progress := false,
    created_at := none, completed_at := none }

/-- A done-lane row (passes = true) with the given id, priority and
completion time. -/
def rowDone (i : Nat) (p : Int) (c : Option Nat) : Feature :=
  { id := i, priority := p, category := "a", name := "D", description := "",
    steps := [], passes := true, in_progress := false,
    created_at := none, completed_at := c }

/-- The completed_at value the state handler writes for a given `passes`
request value: stamp on true, clear on false, keep otherwise. -/
def expectedCompletedAt (p : Option Bool) (now : Nat) (old : Option Nat) :
    Option Nat :=
  match p with
  | some true => some now
  | some false => none
  | none => old

theorem bestMax_mem (f : Feature) (l : List Feature) : bestMax f l ∈ f :: l := by
  induction l generalizing f with
  | nil => simp [bestMax]
  | cons g rest ih =>
    rw [bestMax]
    split
    · exact List.mem_cons_self ..
    · exact List.mem_cons_of_mem _ (ih g)
theorem bestMax_ge (f : Feature) (l : List Feature) :
    ∀ x ∈ f :: l, x.priority ≤ (bestMax f l).priority := by
  induction l generalizing f with
  | nil => simp [bestMax]
  | cons g rest ih =>
    intro x hx
    rw [bestMax]
    rcases List.mem_cons.mp hx with rfl | hx
    · split
      · exact le_refl _
      · next h => exact le_of_not_lt h
    · have hx2 := ih g x hx
      split
      · next h => exact le_of_lt (lt_of_le_of_lt hx2 h)
      · exact hx2
theorem bestMin_mem (f : Feature) (l : List Feature) : bestMin f l ∈ f :: l := by
  induction l generalizing f with
  | nil => simp [bestMin]
  | cons g rest ih =>
    rw [bestMin]
    split
    · exact List.mem_cons_self ..
    · exact List.mem_cons_of_mem _ (ih g)
theorem bestMin_le (f : Feature) (l : List Feature) :
    ∀ x ∈ f :: l, (bestMin f l).priority ≤ x.priority := by
  induction l generalizing f with
  | nil => simp [bestMin]
  | cons g rest ih =>
    intro x hx
    rw [bestMin]
    rcases List.mem_cons.mp hx with rfl | hx
    · split
      · exact le_refl _
      · next h => exact le_of_lt (lt_of_not_le h)
    · have hx2 := ih g x hx
      split
      · next h => exact le_trans h hx2
      · exact hx2
theorem pickMaxPrio_mem {s : List Feature} {g : Feature}
    (h : pickMaxPrio s = some g) : g ∈ s := by
  cases s with
  | nil => simp [pickMaxPrio] at h
  | cons f rest =>
    rw [pickMaxPrio, Option.some.injEq] at h
    exact h ▸ bestMax_mem f rest
theorem pickMaxPrio_ge {s : List Feature} {g : Feature}
    (h : pickMaxPrio s = some g) : ∀ x ∈ s, x.priority ≤ g.priority := by
  cases s with
  | nil => simp [pickMaxPrio] at h
  | cons f rest =>
    rw [pickMaxPrio, Option.some.injEq] at h
    exact h ▸ bestMax_ge f rest
theorem pickMaxPrio_eq_none {s : List Feature} :
    pickMaxPrio s = none ↔ s = [] := by
  cases s <;> simp [pickMaxPrio]
theorem pickMinPrio_mem {s : List Feature} {g : Feature}
    (h : pickMinPrio s = some g) : g ∈ s := by
  cases s with
  | nil => simp [pickMinPrio] at h
  | cons f rest =>
    rw [pickMinPrio, Option.some.injEq] at h
    exact h ▸ bestMin_mem f rest
theorem pickMinPrio_le {s : List Feature} {g : Feature}
    (h : pickMinPrio s = some g) : ∀ x ∈ s, g.priority ≤ x.priority := by
  cases s with
  | nil => simp [pickMinPrio] at h
  | cons f rest =>
    rw [pickMinPrio, Option.some.injEq] at h
    exact h ▸ bestMin_le f rest
theorem pickMinPrio_eq_none {s : List Feature} :
    pickMinPrio s = none ↔ s = [] := by
  cases s <;> simp [pickMinPrio]
theorem sameLane_refl (f : Feature) : sameLane f f = true := by
  simp [sameLane]
theorem sameLane_comm {f g : Feature} (h : sameLane f g = true) : sameLane g f = true := by
  simp only [sameLane, Bool.and_eq_true, beq_iff_eq] at h ⊢
  exact ⟨h.1.symm, h.2.symm⟩
/-- Claim C6: with the moved row in hand, `Move` fails with the edge-of-lane
error exactly when no same-lane row has a strictly lower (`up`) or strictly
higher (`down`) priority; otherwise it swaps the moved row's priority with
that of the nearest such neighbor (the embedding returns no new store on
failure, so a failing call leaves every priority unchanged by construction). -/
theorem move_edge_iff_no_neighbor (s : List Feature) (feature_id : Nat)
    (f : Feature) (hf : findFeature s feature_id = some f) :
    ((move_feature s feature_id "up" = .error .edgeOfLane ↔
        ∀ g ∈ s, sameLane g f = true → ¬ g.priority < f.priority)
      ∧ ∀ s1, move_feature s feature_id "up" = .ok s1 →
          ∃ a ∈ s, sameLane a f = true ∧ a.priority < f.priority ∧
            (∀ g ∈ s, sameLane g f = true → g.priority < f.priority →
              g.priority ≤ a.priority) ∧
            s1 = s.map (swapUpd f a))
    ∧ ((move_feature s feature_id "down" = .error .edgeOfLane ↔
        ∀ g ∈ s, sameLane g f = true → ¬ f.priority < g.priority)
      ∧ ∀ s1, move_feature s feature_id "down" = .ok s1 →
          ∃ a ∈ s, sameLane a f = true ∧ f.priority < a.priority ∧
            (∀ g ∈ s, sameLane g f = true → f.priority < g.priority →
              a.priority ≤ g.priority) ∧
            s1 = s.map (swapUpd f a)) := by
  constructor
  · rw [move_feature, if_pos (Or.inl rfl), hf]
    simp only [Option.elim_some, reduceIte]
    cases hp : pickMaxPrio (upCandidates s f) with
    | none =>
      simp only [Option.elim_none]
      rw [pickMaxPrio_eq_none] at hp
      constructor
      · simp only [true_iff]
        intro g hg hl hlt
        have : g ∈ upCandidates s f := by
          simp only [upCandidates, List.mem_filter, Bool.and_eq_true,
            decide_eq_true_eq]
          exact ⟨hg, hl, hlt⟩
        rw [hp] at this
        simp at this
      · intro s1 h1
        cases h1
    | some a =>
      simp only [Option.elim_some]
      have ha := pickMaxPrio_mem hp
      simp only [upCandidates, List.mem_filter, Bool.and_eq_true,
        decide_eq_true_eq] at ha
      constructor
      · constructor
        · intro h; cases h
        · intro h
          exact absurd ha.2.2 (h a ha.1 ha.2.1)
      · intro s1 h1
        refine ⟨a, ha.1, ha.2.1, ha.2.2, ?_, ?_⟩
        · intro g hg hl hlt
          exact pickMaxPrio_ge hp g (by
            simp only [upCandidates, List.mem_filter, Bool.and_eq_true,
              decide_eq_true_eq]
            exact ⟨hg, hl, hlt⟩)
        · cases h1
          rfl
  · rw [move_feature, if_pos (Or.inr rfl), hf]
    simp only [Option.elim_some, String.reduceEq, reduceIte]
    cases hp : pickMinPrio (downCandidates s f) with
    | none =>
      simp only [Option.elim_none]
      rw [pickMinPrio_eq_none] at hp
      constructor
      · simp only [true_iff]
        intro g hg hl hlt
        have : g ∈ downCandidates s f := by
          simp only [downCandidates, List.mem_filter, Bool.and_eq_true,
            decide_eq_true_eq]
          exact ⟨hg, hl, hlt⟩
        rw [hp] at this
        simp at this
      · intro s1 h1
        cases h1
    | some a =>
      simp only [Option.elim_some]
      have ha := pickMinPrio_mem hp
      simp only [downCandidates, List.mem_filter, Bool.and_eq_true,
        decide_eq_true_eq] at ha
      constructor
      · constructor
        · intro h; cases h
        · intro h
          exact absurd ha.2.2 (h a ha.1 ha.2.1)
      · intro s1 h1
        refine ⟨a, ha.1, ha.2.1, ha.2.2, ?_, ?_⟩
        · intro g hg hl hlt
          exact pickMinPrio_le hp g (by
            simp only [downCandidates, List.mem_filter, Bool.and_eq_true,
              decide_eq_true_eq]
            exact ⟨hg, hl, hlt⟩)
        · cases h1
          rfl
/-- Witness for C6: in a two-row todo lane the top row cannot move up
(edge-of-lane), derived by applying the theorem at a concrete store. -/
theorem move_edge_iff_no_neighbor_witness :
    move_feature
      [{ id := 1, priority := 1, category := "a", name := "A", description := "",
         steps := [], passes := false, in_progress := false,
         created_at := none, completed_at := none },
       { id := 2, priority := 2, category := "a", name := "B", description := "",
         steps := [], passes := false, in_progress := false,
         created_at := none, completed_at := none }]
      1 "up" = .error .edgeOfLane := by
  exact (move_edge_iff_no_neighbor _ 1
    { id := 1, priority := 1, category := "a", name := "A", description := "",
      steps := [], passes := false, in_progress := false,
      created_at := none, completed_at := none } (by decide)).1.1.mpr (by decide)
theorem swapUpd_withoutPriority (f a g : Feature) :
    { swapUpd f a g with priority := 0 } = { g with priority := (0 : Int) } := by
  unfold swapUpd
  split
  · rfl
  · split <;> rfl
theorem swapUpd_id (f a g : Feature) : (swapUpd f a g).id = g.id := by
  unfold swapUpd
  split
  · rfl
  · split <;> rfl
theorem swapUpd_sameLane (f a g h : Feature) :
    sameLane (swapUpd f a g) h = sameLane g h := by
  unfold swapUpd
  split
  · rfl
  · split <;> rfl
theorem reassign_withoutPriority (pairs : List (Feature × Int)) (g : Feature) :
    { reassign pairs g with priority := 0 } = { g with priority := (0 : Int) } := by
  unfold reassign
  cases pairs.find? (fun p => p.1.id == g.id) <;> rfl
theorem reassign_id (pairs : List (Feature × Int)) (g : Feature) :
    (reassign pairs g).id = g.id := by
  unfold reassign
  cases pairs.find? (fun p => p.1.id == g.id) <;> rfl
theorem reassign_sameLane (pairs : List (Feature × Int)) (g h : Feature) :
    sameLane (reassign pairs g) h = sameLane g h := by
  unfold reassign
  cases pairs.find? (fun p => p.1.id == g.id) <;> rfl
/-- Inversion of a successful `move_feature`: the result is the row-wise
priority swap of the moved row with the chosen neighbor. -/
theorem move_ok_shape {s : List Feature} {i : Nat} {dir : String}
    {s1 : List Feature} (h : move_feature s i dir = .ok s1) :
    ∃ f a, findFeature s i = some f ∧ s1 = s.map (swapUpd f a) := by
  unfold move_feature at h
  by_cases hdir : dir = "up" ∨ dir = "down"
  · rw [if_pos hdir] at h
    cases hff : findFeature s i with
    | none => rw [hff] at h; simp only [Option.elim_none] at h; cases h
    | some f =>
      rw [hff] at h
      simp only [Option.elim_some] at h
      cases hpick : (if dir = "up" then pickMaxPrio (upCandidates s f)
                     else pickMinPrio (downCandidates s f)) with
      | none => rw [hpick] at h; simp only [Option.elim_none] at h; cases h
      | some a =>
        rw [hpick] at h
        simp only [Option.elim_some, Except.ok.injEq] at h
        exact ⟨f, a, rfl, h.symm⟩
  · rw [if_neg hdir] at h
    cases h
/-- Inversion of a successful `reorder_feature`: both rows exist, share a
lane, the target occurs in the dragged-row-free ordered lane, and the result
is the positional priority reassignment over the whole table. -/
theorem reorder_ok_shape {s : List Feature} {i tid : Nat} {ib : Bool}
    {s2 : List Feature} (h : reorder_feature s i tid ib = .ok s2) :
    ∃ f t idx, findFeature s i = some f ∧ findFeature s tid = some t ∧
      f.passes = t.passes ∧ f.in_progress = t.in_progress ∧
      ((laneFeatures s f).filter (fun g => g.id != i)).findIdx?
          (fun g => g.id == tid) = some idx ∧
      s2 = s.map (reassign ((((laneFeatures s f).filter (fun g => g.id != i)).insertIdx
            (if ib then idx else idx + 1) f).zip
            ((laneFeatures s f).map Feature.priority))) := by
  unfold reorder_feature at h
  cases hff : findFeature s i with
  | none => rw [hff] at h; simp only [Option.elim_none] at h; cases h
  | some f =>
    rw [hff] at h
    simp only [Option.elim_some] at h
    cases hft : findFeature s tid with
    | none => rw [hft] at h; simp only [Option.elim_none] at h; cases h
    | some t =>
      rw [hft] at h
      simp only [Option.elim_some] at h
      by_cases hlane : f.passes ≠ t.passes ∨ f.in_progress ≠ t.in_progress
      · rw [if_pos hlane] at h; cases h
      · rw [if_neg hlane] at h
        push_neg at hlane
        cases hidx : ((laneFeatures s f).filter (fun g => g.id != i)).findIdx?
            (fun g => g.id == tid) with
        | none => rw [hidx] at h; simp only [Option.elim_none] at h; cases h
        | some idx =>
          rw [hidx] at h
          simp only [Option.elim_some, Except.ok.injEq] at h
          exact ⟨f, t, idx, rfl, rfl, hlane.1, hlane.2, hidx, h.symm⟩
/-- Claim C7: if the moved row and the target row exist but lie in different
lanes, `Reorder` fails with the lane-mismatch error (the embedding returns no
new store on failure, so every stored field is left unchanged by
construction: the check precedes any mutation in `reorder_feature`). -/
theorem reorder_cross_lane_fails (s : List Feature) (i tid : Nat) (ib : Bool)
    (f t : Feature) (hf : findFeature s i = some f)
    (ht : findFeature s tid = some t)
    (hlane : f.passes ≠ t.passes ∨ f.in_progress ≠ t.in_progress) :
    reorder_feature s i tid ib = .error .laneMismatch := by
  rw [reorder_feature, hf]
  simp only [Option.elim_some]
  rw [ht]
  simp only [Option.elim_some]
  rw [if_pos hlane]
/-- Witness for C7: reordering a todo-lane row against a done-lane target
fails with the lane-mismatch error. -/
theorem reorder_cross_lane_fails_witness :
    reorder_feature
      [{ id := 1, priority := 1, category := "a", name := "A", description := "",
         steps := [], passes := false, in_progress := false,
         created_at := none, completed_at := none },
       { id := 2, priority := 2, category := "a", name := "B", description := "",
         steps := [], passes := true, in_progress := false,
         created_at := none, completed_at := some 4 }]
      1 2 true = .error .laneMismatch := by
  exact reorder_cross_lane_fails _ 1 2 true
    { id := 1, priority := 1, category := "a", name := "A", description := "",
      steps := [], passes := false, in_progress := false,
      created_at := none, completed_at := none }
    { id := 2, priority := 2, category := "a", name := "B", description := "",
      steps := [], passes := true, in_progress := false,
      created_at := none, completed_at := some 4 }
    (by decide) (by decide) (by decide)
/-- Claim C10: successful `Move` and `Reorder` calls change only the
`priority` field of the stored rows (`modified_at` is store-managed and
outside the embedding): zeroing out `priority` makes the result table equal
to the original row for row, so the id sequence and every other field are
preserved. -/
theorem move_reorder_touch_only_priority (s : List Feature) (i tid : Nat)
    (dir : String) (ib : Bool) (s1 s2 : List Feature)
    (h1 : move_feature s i dir = .ok s1)
    (h2 : reorder_feature s i tid ib = .ok s2) :
    s1.map (fun g => { g with priority := (0 : Int) }) =
      s.map (fun g => { g with priority := (0 : Int) }) ∧
    s1.map Feature.id = s.map Feature.id ∧
    s2.map (fun g => { g with priority := (0 : Int) }) =
      s.map (fun g => { g with priority := (0 : Int) }) ∧
    s2.map Feature.id = s.map Feature.id := by
  obtain ⟨f, a, -, rfl⟩ := move_ok_shape h1
  obtain ⟨f2, t2, idx, -, -, -, -, -, rfl⟩ := reorder_ok_shape h2
  refine ⟨?_, ?_, ?_, ?_⟩
  · rw [List.map_map]
    exact List.map_congr_left (fun g _ => swapUpd_withoutPriority f a g)
  · rw [List.map_map]
    exact List.map_congr_left (fun g _ => swapUpd_id f a g)
  · rw [List.map_map]
    exact List.map_congr_left (fun g _ => reassign_withoutPriority _ g)
  · rw [List.map_map]
    exact List.map_congr_left (fun g _ => reassign_id _ g)
/-- Witness for C10: on a two-row todo lane both a successful move and a
successful reorder keep the id sequence and the priority-erased table. -/
theorem move_reorder_touch_only_priority_witness :
    ([{ id := 1, priority := 2, category := "a", name := "A", description := "",
        steps := [], passes := false, in_progress := false,
        created_at := none, completed_at := none },
      { id := 2, priority := 1, category := "a", name := "B", description := "",
        steps := [], passes := false, in_progress := false,
        created_at := none, completed_at := none }] :
      List Feature).map Feature.id =
    ([{ id := 1, priority := 1, category := "a", name := "A", description := "",
        steps := [], passes := false, in_progress := false,
        created_at := none, completed_at := none },
      { id := 2, priority := 2, category := "a", name := "B", description := "",
        steps := [], passes := false, in_progress := false,
        created_at := none, completed_at := none }] :
      List Feature).map Feature.id := by
  exact (move_reorder_touch_only_priority
    [{ id := 1, priority := 1, category := "a", name := "A", description := "",
       steps := [], passes := false, in_progress := false,
       created_at := none, completed_at := none },
     { id := 2, priority := 2, category := "a", name := "B", description := "",
       steps := [], passes := false, in_progress := false,
       created_at := none, completed_at := none }]
    1 2 "down" false
    [{ id := 1, priority := 2, category := "a", name := "A", description := "",
       steps := [], passes := false, in_progress := false,
       created_at := none, completed_at := none },
     { id := 2, priority := 1, category := "a", name := "B", description := "",
       steps := [], passes := false, in_progress := false,
       created_at := none, completed_at := none }]
    [{ id := 1, priority := 2, category := "a", name := "A", description := "",
       steps := [], passes := false, in_progress := false,
       created_at := none, completed_at := none },
     { id := 2, priority := 1, category := "a", name := "B", description := "",
       steps := [], passes := false, in_progress := false,
       created_at := none, completed_at := none }]
    (by rfl) (by rfl)).2.1
theorem findFeature_mem {s : List Feature} {i : Nat} {f : Feature}
    (h : findFeature s i = some f) : f ∈ s ∧ f.id = i := by
  refine ⟨List.mem_of_find?_eq_some h, ?_⟩
  have := List.find?_some h
  simpa using this
/-- With pairwise distinct ids, a shared id forces equality of rows. -/
theorem id_unique {s : List Feature} (hnd : (s.map Feature.id).Nodup)
    {g h : Feature} (hg : g ∈ s) (hh : h ∈ s) (hid : g.id = h.id) : g = h :=
  List.inj_on_of_nodup_map hnd hg hh hid
/-- Removing the unique holder of id `i` and putting it back in front is a
permutation of the original list. -/
theorem cons_filter_ne_perm {l : List Feature} {f : Feature} {i : Nat}
    (hnd : (l.map Feature.id).Nodup) (hm : f ∈ l) (hid : f.id = i) :
    (f :: l.filter (fun g => g.id != i)).Perm l := by
  induction l with
  | nil => cases hm
  | cons h tl ih =>
    rw [List.map_cons, List.nodup_cons] at hnd
    rcases List.mem_cons.mp hm with rfl | hm2
    · rw [List.filter_cons, if_neg (by simp [hid])]
      have htl : tl.filter (fun g => g.id != i) = tl := by
        rw [List.filter_eq_self]
        intro a ha
        simp only [bne_iff_ne, ne_eq, decide_eq_true_eq]
        intro hai
        exact hnd.1 (by rw [hid, ← hai]; exact List.mem_map_of_mem Feature.id ha)
      rw [htl]
    · have hhi : (h.id != i) = true := by
        simp only [bne_iff_ne, ne_eq]
        intro hhid
        exact hnd.1 (by rw [hhid, ← hid]; exact List.mem_map_of_mem Feature.id hm2)
      rw [List.filter_cons, if_pos (by simp [hhi])]
      exact (List.Perm.swap h f _).trans ((ih hnd.2 hm2).cons h)
/-- Positional reassignment over a zip of a list with pairwise distinct ids
returns exactly the assigned priority column. -/
theorem map_reassign_zip_priority : ∀ (l : List Feature) (P : List Int),
    (l.map Feature.id).Nodup → l.length = P.length →
    l.map (fun g => (reassign (l.zip P) g).priority) = P := by
  intro l
  induction l with
  | nil =>
    intro P _ hlen
    cases P with
    | nil => rfl
    | cons q Q => simp at hlen
  | cons g tl ih =>
    intro P hnd hlen
    cases P with
    | nil => simp at hlen
    | cons q Q =>
      rw [List.map_cons, List.nodup_cons] at hnd
      rw [List.zip_cons_cons, List.map_cons]
      have hhead : (reassign ((g, q) :: tl.zip Q) g).priority = q := by
        unfold reassign
        rw [List.find?_cons_of_pos _ (by simp)]
        rfl
      rw [hhead]
      have htail : tl.map (fun x => (reassign ((g, q) :: tl.zip Q) x).priority)
          = tl.map (fun x => (reassign (tl.zip Q) x).priority) := by
        apply List.map_congr_left
        intro x hx
        have hfind : List.find? (fun p => p.1.id == x.id) ((g, q) :: tl.zip Q)
            = List.find? (fun p => p.1.id == x.id) (tl.zip Q) := by
          rw [List.find?_cons_of_neg]
          simp only [beq_iff_eq]
          intro hgx
          exact hnd.1 (by rw [hgx]; exact List.mem_map_of_mem Feature.id hx)
        unfold reassign
        rw [hfind]
      rw [htail, ih Q hnd.2 (by simpa using hlen)]
theorem laneFeatures_perm (s : List Feature) (f : Feature) :
    (laneFeatures s f).Perm (s.filter (fun g => sameLane g f)) :=
  List.perm_insertionSort prioLe _
theorem laneFeatures_nodup_ids {s : List Feature} (f : Feature)
    (hnd : (s.map Feature.id).Nodup) :
    ((laneFeatures s f).map Feature.id).Nodup := by
  have h1 : ((s.filter (fun g => sameLane g f)).map Feature.id).Nodup :=
    ((List.filter_sublist s).map Feature.id).nodup hnd
  exact (((laneFeatures_perm s f).map Feature.id).nodup_iff).mpr h1
/-- Claim C1: a successful `Reorder` keeps the multiset of priority values of
the affected lane (the rows sharing the moved row's `(passes, in_progress)`
pair) unchanged, and leaves every row in every other lane entirely
untouched. -/
theorem reorder_preserves_lane_priority_multiset
    (s : List Feature) (i tid : Nat) (ib : Bool) (f : Feature)
    (s2 : List Feature)
    (hnd : (s.map Feature.id).Nodup)
    (hf : findFeature s i = some f)
    (h : reorder_feature s i tid ib = .ok s2) :
    ((((s2.filter (fun g => sameLane g f)).map Feature.priority) : Multiset Int)
      = (((s.filter (fun g => sameLane g f)).map Feature.priority) : Multiset Int))
    ∧ s2.filter (fun g => !(sameLane g f)) = s.filter (fun g => !(sameLane g f)) := by
  obtain ⟨f0, t, idx, hf0, ht, hp1, hp2, hidx, hs2⟩ := reorder_ok_shape h
  rw [hf] at hf0
  injection hf0 with hf0
  subst hf0
  obtain ⟨hfs, hfid⟩ := findFeature_mem hf
  set lane := laneFeatures s f with hlane
  set O := lane.filter (fun g => g.id != i) with hO
  set ins := if ib then idx else idx + 1 with hins
  set P := lane.map Feature.priority with hP
  set pairs := (O.insertIdx ins f).zip P with hpairs
  have hlanePerm : lane.Perm (s.filter (fun g => sameLane g f)) :=
    laneFeatures_perm s f
  have hlaneNd : (lane.map Feature.id).Nodup := laneFeatures_nodup_ids f hnd
  have hflane : f ∈ lane := by
    rw [hlanePerm.mem_iff]
    exact List.mem_filter.mpr ⟨hfs, sameLane_refl f⟩
  have hconsO : (f :: O).Perm lane := cons_filter_ne_perm hlaneNd hflane hfid
  have hidxlt : idx < O.length := by
    rw [List.findIdx?_eq_some_iff_findIdx_eq] at hidx
    exact hidx.1
  have hinsle : ins ≤ O.length := by
    rw [hins]
    split <;> omega
  have hO2perm : (O.insertIdx ins f).Perm (f :: O) := List.perm_insertIdx f O hinsle
  have hO2lane : (O.insertIdx ins f).Perm lane := hO2perm.trans hconsO
  have hO2nd : ((O.insertIdx ins f).map Feature.id).Nodup :=
    ((hO2lane.map Feature.id).nodup_iff).mpr hlaneNd
  have hlen : (O.insertIdx ins f).length = P.length := by
    rw [hO2lane.length_eq, hP, List.length_map]
  have hkey : (O.insertIdx ins f).map (fun g => (reassign pairs g).priority) = P :=
    map_reassign_zip_priority _ P hO2nd hlen
  have hmemO2 : ∀ x ∈ O.insertIdx ins f, x ∈ s ∧ sameLane x f = true := by
    intro x hx
    have hxf : x ∈ s.filter (fun g => sameLane g f) := by
      rw [← hlanePerm.mem_iff]
      exact hO2lane.subset hx
    exact List.mem_filter.mp hxf
  constructor
  · rw [hs2, List.filter_map]
    have hfiltc : List.filter ((fun g => sameLane g f) ∘ reassign pairs) s
        = List.filter (fun g => sameLane g f) s := by
      apply List.filter_congr
      intro x _
      exact reassign_sameLane pairs x f
    rw [hfiltc, List.map_map, Multiset.coe_eq_coe]
    show (List.map (fun g => (reassign pairs g).priority)
        (List.filter (fun g => sameLane g f) s)).Perm
        (List.map Feature.priority (List.filter (fun g => sameLane g f) s))
    have e1 := ((hO2lane.trans hlanePerm).map
        (fun g => (reassign pairs g).priority)).symm
    refine e1.trans ?_
    rw [hkey, hP]
    exact hlanePerm.map Feature.priority
  · rw [hs2, List.filter_map]
    have hfiltc : List.filter ((fun g => !(sameLane g f)) ∘ reassign pairs) s
        = List.filter (fun g => !(sameLane g f)) s := by
      apply List.filter_congr
      intro x _
      simp only [Function.comp_apply, reassign_sameLane]
    rw [hfiltc]
    have : ∀ x ∈ List.filter (fun g => !(sameLane g f)) s, reassign pairs x = x := by
      intro x hx
      have hxs : x ∈ s := List.mem_of_mem_filter hx
      have hxl : sameLane x f = false := by
        have := List.of_mem_filter hx
        simpa using this
      have hnone : pairs.find? (fun p => p.1.id == x.id) = none := by
        rw [List.find?_eq_none]
        intro p hp
        simp only [beq_iff_eq]
        intro hpid
        obtain ⟨hp1mem, -⟩ := List.of_mem_zip hp
        obtain ⟨hp1s, hp1lane⟩ := hmemO2 p.1 hp1mem
        have hpx := id_unique hnd hp1s hxs hpid
        rw [hpx] at hp1lane
        rw [hp1lane] at hxl
        cases hxl
      unfold reassign
      rw [hnone, Option.elim_none]
    calc List.map (reassign pairs) (List.filter (fun g => !(sameLane g f)) s)
        = List.map id (List.filter (fun g => !(sameLane g f)) s) :=
          List.map_congr_left this
      _ = List.filter (fun g => !(sameLane g f)) s := List.map_id _
/-- Claim C2: a successful Create assigns the new Feature a priority equal to
one plus the maximum priority over all Features in the entire store
(regardless of lane), or 1 if the store contains no Features, and defaults the
new Feature to `passes = false` and `in_progress = false`. -/
theorem create_assigns_global_max_plus_one
    (s : List Feature) (category name description : String)
    (steps : List String) (now : Nat) :
    let r := create_feature s category name description steps now
    r.2.passes = false ∧ r.2.in_progress = false ∧
    (s = [] → r.2.priority = 1) ∧
    (∀ g ∈ s, g.priority < r.2.priority) ∧
    (s ≠ [] → ∃ g ∈ s, r.2.priority = g.priority + 1) := by
  intro r
  refine ⟨rfl, rfl, ?_, ?_, ?_⟩
  · intro hs
    subst hs
    rfl
  · intro g hg
    show g.priority < (create_feature s category name description steps now).2.priority
    unfold create_feature
    cases hp : pickMaxPrio s with
    | none =>
      rw [pickMaxPrio_eq_none] at hp
      subst hp
      simp at hg
    | some m =>
      simpa using lt_of_le_of_lt (pickMaxPrio_ge hp g hg) (by omega)
  · intro hs
    show ∃ g ∈ s, (create_feature s category name description steps now).2.priority = g.priority + 1
    unfold create_feature
    cases hp : pickMaxPrio s with
    | none => exact absurd (pickMaxPrio_eq_none.mp hp) hs
    | some m => exact ⟨m, pickMaxPrio_mem hp, by simp⟩
/-- Witness for C2: on a concrete two-row store the created Feature gets
priority 8 = max 7 + 1 and todo-lane defaults. -/
theorem create_assigns_global_max_plus_one_witness :
    let s : List Feature :=
      [{ id := 1, priority := 7, category := "a", name := "A", description := "",
         steps := [], passes := true, in_progress := false,
         created_at := some 0, completed_at := some 3 },
       { id := 2, priority := 2, category := "b", name := "B", description := "",
         steps := [], passes := false, in_progress := false,
         created_at := some 0, completed_at := none }]
    (s ≠ [] ∧ ∃ g ∈ s, (create_feature s "c" "C" "d" [] 9).2.priority = g.priority + 1)
    ∧ (create_feature s "c" "C" "d" [] 9).2.passes = false := by
  intro s
  refine ⟨⟨by decide, ?_⟩, ?_⟩
  · exact (create_assigns_global_max_plus_one s "c" "C" "d" [] 9).2.2.2.2 (by decide)
  · exact (create_assigns_global_max_plus_one s "c" "C" "d" [] 9).1

theorem forall₂_map_self {α : Type} (R : α → α → Prop) (u : α → α)
    (l : List α) (h : ∀ x ∈ l, R x (u x)) : List.Forall₂ R l (l.map u) := by
  induction l with
  | nil => exact List.Forall₂.nil
  | cons a t ih =>
    rw [List.map_cons]
    exact List.Forall₂.cons (h a (List.mem_cons_self ..))
      (ih (fun x hx => h x (List.mem_cons_of_mem _ hx)))

/-- Witness for C1: reordering row 1 before row 3 in a three-row todo lane
permutes the priorities 1, 2, 3 without changing the lane multiset. -/
theorem reorder_preserves_lane_priority_multiset_witness :
    ((([rowA 2, rowB 1, rowC 3].filter (fun g => sameLane g (rowA 1))).map
        Feature.priority : List Int) : Multiset Int)
      = ((([rowA 1, rowB 2, rowC 3].filter (fun g => sameLane g (rowA 1))).map
        Feature.priority : List Int) : Multiset Int) := by
  exact (reorder_preserves_lane_priority_multiset [rowA 1, rowB 2, rowC 3]
    1 3 true (rowA 1) [rowA 2, rowB 1, rowC 3] (by decide) (by rfl) (by rfl)).1

theorem applyState_completed_at (p ip : Option Bool) (now : Nat) (g : Feature) :
    (applyState p ip now g).completed_at =
      expectedCompletedAt p now g.completed_at := by
  unfold expectedCompletedAt
  unfold applyState
  cases p with
  | none => cases ip <;> rfl
  | some b => cases b <;> cases ip <;> rfl

/-- Counterexample to C8 as stated: a state request that sets `passes` to its
current value true is not a transition, yet the handler re-stamps
`completed_at` with the current time (5 becomes 7): `update_feature_state`
writes the timestamp whenever `request.passes` is present, without comparing
it to the stored value. -/
theorem completed_at_restamp_counterexample :
    update_feature_state [rowDone 1 1 (some 5)] 1 (some true) none 7
      = .ok [rowDone 1 1 (some 7)]
    ∧ (rowDone 1 1 (some 5)).passes = true
    ∧ (rowDone 1 1 (some 7)).completed_at ≠ (rowDone 1 1 (some 5)).completed_at := by
  exact ⟨rfl, rfl, by decide⟩

/-- Claim C8, amended: `completed_at` is stamped with the current time
whenever a state update sets `passes = true` and cleared whenever it sets
`passes = false`, regardless of the prior value of `passes`; an update that
omits `passes`, including one that only toggles `in_progress`, leaves
`completed_at` unchanged, and rows other than the addressed one are
untouched. -/
theorem update_state_completed_at (s : List Feature) (i : Nat)
    (p ip : Option Bool) (now : Nat) (s2 : List Feature)
    (h : update_feature_state s i p ip now = .ok s2) :
    List.Forall₂ (fun g g2 =>
      (g.id ≠ i → g2 = g) ∧
      (g.id = i →
        g2.completed_at = expectedCompletedAt p now g.completed_at)) s s2 := by
  unfold update_feature_state at h
  cases hff : findFeature s i with
  | none => rw [hff] at h; simp only [Option.elim_none] at h; cases h
  | some f =>
    rw [hff] at h
    simp only [Option.elim_some, Except.ok.injEq] at h
    rw [← h]
    clear h hff
    apply forall₂_map_self
    intro g _
    by_cases hgi : g.id = i
    · constructor
      · intro hne
        exact absurd hgi hne
      · intro _
        rw [if_pos (by simpa using hgi)]
        exact applyState_completed_at p ip now g
    · constructor
      · intro _
        rw [if_neg (by simpa using hgi)]
      · intro heq
        exact absurd heq hgi

/-- Witness for the amended C8: an in-progress-only toggle on a concrete
store, related row by row to its result. -/
theorem update_state_completed_at_witness :
    List.Forall₂ (fun g g2 =>
      (g.id ≠ 1 → g2 = g) ∧
      (g.id = 1 →
        g2.completed_at = expectedCompletedAt none 9 g.completed_at))
      [rowA 1] [{ rowA 1 with in_progress := true }] := by
  exact update_state_completed_at [rowA 1] 1 none (some true) 9
    [{ rowA 1 with in_progress := true }] (by rfl)

/-- Inversion of a successful `Move` with direction `up`. -/
theorem move_ok_up_shape {s : List Feature} {i : Nat} {s1 : List Feature}
    (h : move_feature s i "up" = .ok s1) :
    ∃ f a, findFeature s i = some f ∧ pickMaxPrio (upCandidates s f) = some a ∧
      s1 = s.map (swapUpd f a) := by
  rw [move_feature, if_pos (Or.inl rfl)] at h
  cases hff : findFeature s i with
  | none => rw [hff] at h; simp only [Option.elim_none] at h; cases h
  | some f =>
    rw [hff] at h
    simp only [Option.elim_some, reduceIte] at h
    cases hp : pickMaxPrio (upCandidates s f) with
    | none => rw [hp] at h; simp only [Option.elim_none] at h; cases h
    | some a =>
      rw [hp] at h
      simp only [Option.elim_some, Except.ok.injEq] at h
      exact ⟨f, a, rfl, hp, h.symm⟩

/-- Inversion of a successful `Move` with direction `down`. -/
theorem move_ok_down_shape {s : List Feature} {i : Nat} {s1 : List Feature}
    (h : move_feature s i "down" = .ok s1) :
    ∃ f a, findFeature s i = some f ∧ pickMinPrio (downCandidates s f) = some a ∧
      s1 = s.map (swapUpd f a) := by
  rw [move_feature, if_pos (Or.inr rfl)] at h
  cases hff : findFeature s i with
  | none => rw [hff] at h; simp only [Option.elim_none] at h; cases h
  | some f =>
    rw [hff] at h
    simp only [Option.elim_some, String.reduceEq, reduceIte] at h
    cases hp : pickMinPrio (downCandidates s f) with
    | none => rw [hp] at h; simp only [Option.elim_none] at h; cases h
    | some a =>
      rw [hp] at h
      simp only [Option.elim_some, Except.ok.injEq] at h
      exact ⟨f, a, rfl, hp, h.symm⟩

theorem findFeature_map {s : List Feature} {i : Nat} {u : Feature → Feature}
    (hu : ∀ g, (u g).id = g.id) :
    findFeature (s.map u) i = (findFeature s i).map u := by
  unfold findFeature
  induction s with
  | nil => rfl
  | cons g tl ih =>
    rw [List.map_cons]
    by_cases hgi : g.id = i
    · rw [List.find?_cons_of_pos _ (by simp [hu, hgi]),
        List.find?_cons_of_pos _ (by simp [hgi])]
      rfl
    · rw [List.find?_cons_of_neg _ (by simp [hu, hgi]),
        List.find?_cons_of_neg _ (by simp [hgi])]
      exact ih

theorem swapUpd_moved {f a : Feature} (g : Feature) (hg : g.id = f.id) :
    swapUpd f a g = { g with priority := a.priority } := by
  unfold swapUpd
  rw [if_pos (by simpa using hg)]

theorem swapUpd_partner {f a : Feature} (g : Feature) (hg1 : g.id ≠ f.id)
    (hg2 : g.id = a.id) :
    swapUpd f a g = { g with priority := f.priority } := by
  unfold swapUpd
  rw [if_neg (by simpa using hg1), if_pos (by simpa using hg2)]

theorem swapUpd_other {f a : Feature} (g : Feature) (hg1 : g.id ≠ f.id)
    (hg2 : g.id ≠ a.id) : swapUpd f a g = g := by
  unfold swapUpd
  rw [if_neg (by simpa using hg1), if_neg (by simpa using hg2)]

/-- Counterexample to C5 as stated: in the todo lane with rows
(id 1, priority 5), (id 2, priority 5), (id 3, priority 3), `Move(1, up)`
swaps rows 1 and 3, but the following `Move(1, down)` selects row 2 — the
first row in scan order among the tied candidates at priority 5 — so row 3,
one of the two rows involved in the first call, keeps priority 5 instead of
being restored to its original 3.  Duplicate priorities are reachable
through `PATCH /priority`, which only requires the value to be ≥ 1. -/
theorem move_up_down_counterexample :
    (move_feature [rowA 5, rowB 5, rowC 3] 1 "up"
      = .ok [rowA 3, rowB 5, rowC 5])
    ∧ (move_feature [rowA 3, rowB 5, rowC 5] 1 "down"
      = .ok [rowA 5, rowB 3, rowC 5])
    ∧ (rowC 5).priority ≠ (rowC 3).priority := by
  exact ⟨rfl, rfl, by decide⟩

/-- Claim C5, amended: provided the lane's priority values are pairwise
distinct (the stated convention for stores driven through this API; the
counterexample shows the claim fails on tied values), `Move(id, up)` followed
by `Move(id, down)` with no mutation in between restores the store exactly —
in particular both involved rows' priorities. -/
theorem move_up_down_roundtrip (s : List Feature) (i : Nat) (f : Feature)
    (s1 s2 : List Feature)
    (hnd : (s.map Feature.id).Nodup)
    (hf : findFeature s i = some f)
    (hdp : ((s.filter (fun g => sameLane g f)).map Feature.priority).Nodup)
    (h1 : move_feature s i "up" = .ok s1)
    (h2 : move_feature s1 i "down" = .ok s2) :
    s2 = s := by
  obtain ⟨f0, a, hf0, hpa, hs1⟩ := move_ok_up_shape h1
  rw [hf] at hf0
  injection hf0 with hf0
  subst hf0
  obtain ⟨hfs, hfid⟩ := findFeature_mem hf
  have hamem := pickMaxPrio_mem hpa
  simp only [upCandidates, List.mem_filter, Bool.and_eq_true,
    decide_eq_true_eq] at hamem
  obtain ⟨has, halane, haprio⟩ := hamem
  have hamax : ∀ g ∈ s, sameLane g f = true → g.priority < f.priority →
      g.priority ≤ a.priority := by
    intro g hg hl hlt
    exact pickMaxPrio_ge hpa g (by
      simp only [upCandidates, List.mem_filter, Bool.and_eq_true,
        decide_eq_true_eq]
      exact ⟨hg, hl, hlt⟩)
  have hafid : a.id ≠ f.id := by
    intro hid
    have haf := id_unique hnd has hfs hid
    subst haf
    exact absurd haprio (lt_irrefl _)
  have hu_id : ∀ g, (swapUpd f a g).id = g.id := swapUpd_id f a
  have hswf : swapUpd f a f = { f with priority := a.priority } :=
    swapUpd_moved f rfl
  have hff1 : findFeature s1 i = some { f with priority := a.priority } := by
    rw [hs1, findFeature_map hu_id, hf]
    exact congrArg some hswf
  obtain ⟨f1, b, hf1, hpb, hs2⟩ := move_ok_down_shape h2
  rw [hff1] at hf1
  injection hf1 with hf1
  subst hf1
  have hbmem := pickMinPrio_mem hpb
  simp only [downCandidates, List.mem_filter, Bool.and_eq_true,
    decide_eq_true_eq] at hbmem
  obtain ⟨hbs1, hblane, hbprio⟩ := hbmem
  have hbmin := pickMinPrio_le hpb
  have hswa : swapUpd f a a = { a with priority := f.priority } :=
    swapUpd_partner a hafid rfl
  have ha1mem : { a with priority := f.priority } ∈
      downCandidates s1 { f with priority := a.priority } := by
    simp only [downCandidates, List.mem_filter, Bool.and_eq_true,
      decide_eq_true_eq]
    refine ⟨?_, ?_, ?_⟩
    · rw [hs1, ← hswa]
      exact List.mem_map_of_mem _ has
    · exact halane
    · exact haprio
  have hble : b.priority ≤ f.priority :=
    hbmin { a with priority := f.priority } ha1mem
  rw [hs1] at hbs1
  obtain ⟨b0, hb0s, hb0eq⟩ := List.mem_map.mp hbs1
  have hbge : f.priority ≤ b.priority := by
    by_cases hb0f : b0.id = f.id
    · have hb0 : b0 = f := id_unique hnd hb0s hfs hb0f
      rw [hb0, hswf] at hb0eq
      rw [← hb0eq] at hbprio
      exact absurd hbprio (lt_irrefl _)
    · by_cases hb0a : b0.id = a.id
      · have hb0 : b0 = a := id_unique hnd hb0s has hb0a
        rw [hb0, hswa] at hb0eq
        rw [← hb0eq]
      · rw [swapUpd_other b0 hb0f hb0a] at hb0eq
        rw [← hb0eq] at hbprio hblane ⊢
        by_contra hlt
        push_neg at hlt
        exact absurd hbprio (not_lt.mpr (hamax b0 hb0s hblane hlt))
  have hbpf : b.priority = f.priority := le_antisymm hble hbge
  have hb_eq : b = { a with priority := f.priority } := by
    by_cases hb0f : b0.id = f.id
    · have hb0 : b0 = f := id_unique hnd hb0s hfs hb0f
      rw [hb0, hswf] at hb0eq
      rw [← hb0eq] at hbpf
      exact absurd hbpf (ne_of_lt haprio)
    · by_cases hb0a : b0.id = a.id
      · have hb0 : b0 = a := id_unique hnd hb0s has hb0a
        rw [hb0, hswa] at hb0eq
        exact hb0eq.symm
      · rw [swapUpd_other b0 hb0f hb0a] at hb0eq
        rw [← hb0eq] at hbpf hblane
        have hb0filter : b0 ∈ s.filter (fun g => sameLane g f) :=
          List.mem_filter.mpr ⟨hb0s, hblane⟩
        have hffilter : f ∈ s.filter (fun g => sameLane g f) :=
          List.mem_filter.mpr ⟨hfs, sameLane_refl f⟩
        have hb0fe : b0 = f :=
          List.inj_on_of_nodup_map hdp hb0filter hffilter hbpf
        exact absurd (congrArg Feature.id hb0fe) hb0f
  subst hb_eq
  rw [hs2, hs1, List.map_map]
  have hpoint : ∀ g ∈ s,
      (swapUpd { f with priority := a.priority } { a with priority := f.priority }
        ∘ swapUpd f a) g = g := by
    intro g hgs
    simp only [Function.comp_apply]
    by_cases hgf : g.id = f.id
    · have hgf2 : g = f := id_unique hnd hgs hfs hgf
      rw [hgf2, hswf,
        @swapUpd_moved { f with priority := a.priority }
          { a with priority := f.priority } { f with priority := a.priority } rfl]
    · by_cases hga : g.id = a.id
      · have hga2 : g = a := id_unique hnd hgs has hga
        rw [hga2, hswa,
          @swapUpd_partner { f with priority := a.priority }
            { a with priority := f.priority } { a with priority := f.priority }
            hafid rfl]
      · rw [swapUpd_other g hgf hga,
          @swapUpd_other { f with priority := a.priority }
            { a with priority := f.priority } g hgf hga]
  rw [List.map_congr_left hpoint, List.map_id']

/-- Witness for the amended C5: on a two-row todo lane with distinct
priorities, up then down restores the store. -/
theorem move_up_down_roundtrip_witness :
    (move_feature [rowA 2, rowB 1] 1 "up" = .ok [rowA 1, rowB 2])
    ∧ ([rowA 2, rowB 1] : List Feature) = [rowA 2, rowB 1] := by
  refine ⟨rfl, ?_⟩
  exact move_up_down_roundtrip [rowA 2, rowB 1] 1 (rowA 2) [rowA 1, rowB 2]
    [rowA 2, rowB 1] (by decide) (by rfl) (by decide) (by rfl) (by rfl)

theorem orderedInsert_pairwise_lex {a : Feature} {l : List Feature}
    (hl : l.Pairwise prioIdLt) (ha : ∀ b ∈ l, a.id < b.id) :
    (l.orderedInsert prioLe a).Pairwise prioIdLt := by
  induction l with
  | nil => simp [List.orderedInsert, List.pairwise_cons]
  | cons b t ih =>
    rw [List.orderedInsert]
    by_cases hab : prioLe a b
    · have hab2 : a.priority ≤ b.priority := hab
      rw [if_pos hab, List.pairwise_cons]
      refine ⟨?_, hl⟩
      intro x hx
      rcases List.mem_cons.mp hx with rfl | hxt
      · rcases lt_or_eq_of_le hab2 with hlt | heq
        · exact Or.inl hlt
        · exact Or.inr ⟨heq, ha x (List.mem_cons_self ..)⟩
      · have hbx := (List.pairwise_cons.mp hl).1 x hxt
        rcases hbx with hlt | ⟨heq, _⟩
        · exact Or.inl (lt_of_le_of_lt hab2 hlt)
        · rcases lt_or_eq_of_le hab2 with h2 | h2
          · exact Or.inl (heq ▸ h2)
          · exact Or.inr ⟨h2.trans heq, ha x (List.mem_cons_of_mem _ hxt)⟩
    · have hba : b.priority < a.priority := lt_of_not_le hab
      rw [if_neg hab, List.pairwise_cons]
      refine ⟨?_, ih (List.pairwise_cons.mp hl).2
        (fun x hx => ha x (List.mem_cons_of_mem _ hx))⟩
      intro x hx
      rcases (List.mem_orderedInsert prioLe).mp hx with rfl | hxt
      · exact Or.inl hba
      · exact (List.pairwise_cons.mp hl).1 x hxt

theorem insertionSort_pairwise_lex {l : List Feature}
    (hl : l.Pairwise (fun g h => g.id < h.id)) :
    (List.insertionSort prioLe l).Pairwise prioIdLt := by
  induction l with
  | nil => simp [List.insertionSort]
  | cons a t ih =>
    rw [List.insertionSort]
    apply orderedInsert_pairwise_lex (ih (List.pairwise_cons.mp hl).2)
    intro b hb
    have hb2 : b ∈ t := by simpa using hb
    exact (List.pairwise_cons.mp hl).1 b hb2

/-- Claim C9: with the table in ascending-id (rowid) order, the todo and
in-progress lane queries (`passes = false`, `in_progress` pinned) return
their lanes ordered strictly by ascending priority with ties broken by
ascending id, and the done query (`passes = true`) returns the done rows
ordered by descending `completed_at` with rows lacking a completion time
last. -/
theorem get_features_ordering (s : List Feature)
    (hid : s.Pairwise (fun g h => g.id < h.id)) :
    (∀ b : Bool,
      (get_features s (some false) (some b) none).Pairwise prioIdLt
      ∧ (get_features s (some false) (some b) none).Perm
          (s.filter (fun g => g.passes == false && g.in_progress == b)))
    ∧ ((get_features s (some true) none none).Pairwise doneLe
      ∧ (get_features s (some true) none none).Perm
          (s.filter (fun g => g.passes == true))) := by
  constructor
  · intro b
    rw [get_features, if_neg (by decide)]
    constructor
    · apply insertionSort_pairwise_lex
      exact List.Pairwise.sublist (List.filter_sublist s) hid
    · refine (List.perm_insertionSort prioLe _).trans ?_
      have hq : featQuery s (some false) (some b) none
          = s.filter (fun g => g.passes == false && g.in_progress == b) := by
        unfold featQuery
        apply List.filter_congr
        intro x _
        simp
      rw [hq]
  · rw [get_features, if_pos rfl]
    constructor
    · exact List.sorted_insertionSort doneLe _
    · refine (List.perm_insertionSort doneLe _).trans ?_
      have hq : featQuery s (some true) none none
          = s.filter (fun g => g.passes == true) := by
        unfold featQuery
        apply List.filter_congr
        intro x _
        simp
      rw [hq]

/-- Witness for C9: a concrete mixed store with the done lane queried; the
result is sorted by descending completion time with nulls last. -/
theorem get_features_ordering_witness :
    (get_features [rowA 1, rowDone 2 5 (some 3), rowDone 3 6 (some 9)]
      (some true) none none).Pairwise doneLe := by
  exact (get_features_ordering [rowA 1, rowDone 2 5 (some 3), rowDone 3 6 (some 9)]
    (by decide)).2.1

theorem stepResult_error {σ ε : Type} (st : MigState σ) (v : Nat) (e : ε)
    (k : MigState σ → MigState σ × List Nat × Option ε) :
    stepResult st v (.error e) k = (st, [], some e) := rfl

theorem stepResult_ok {σ ε : Type} (st : MigState σ) (v : Nat) (d : σ)
    (k : MigState σ → MigState σ × List Nat × Option ε) :
    stepResult st v (.ok d) k = ((k ⟨v, d⟩).1, v :: (k ⟨v, d⟩).2.1, (k ⟨v, d⟩).2.2) :=
  rfl

/-- If every registered version is at most the recorded one, the engine is a
no-op: no step runs, no error, state unchanged. -/
theorem run_skip_all {σ ε : Type} :
    ∀ (steps : List (Nat × (σ → Except ε σ))) (st : MigState σ),
    (∀ p ∈ steps, p.1 ≤ st.schema_version) →
    run_migrations steps st = (st, [], none) := by
  intro steps
  induction steps with
  | nil => intro st _; rfl
  | cons p rest ih =>
    intro st hall
    obtain ⟨v, fm⟩ := p
    rw [run_migrations,
      if_neg (not_lt.mpr (hall (v, fm) (List.mem_cons_self ..)))]
    exact ih st (fun q hq => hall q (List.mem_cons_of_mem _ hq))

/-- Every committed version strictly exceeds the version recorded at entry. -/
theorem run_applied_gt {σ ε : Type} :
    ∀ (steps : List (Nat × (σ → Except ε σ))) (st : MigState σ),
    ∀ w ∈ (run_migrations steps st).2.1, st.schema_version < w := by
  intro steps
  induction steps with
  | nil => intro st w hw; simp [run_migrations] at hw
  | cons p rest ih =>
    intro st w hw
    obtain ⟨v, fm⟩ := p
    rw [run_migrations] at hw
    by_cases hv : st.schema_version < v
    · rw [if_pos hv] at hw
      cases hd : fm st.db with
      | error e =>
        rw [hd, stepResult_error] at hw
        simp at hw
      | ok d =>
        rw [hd, stepResult_ok] at hw
        rcases List.mem_cons.mp hw with rfl | hw2
        · exact hv
        · exact lt_trans hv (ih ⟨v, d⟩ w hw2)
    · rw [if_neg hv] at hw
      exact ih st w hw

/-- The committed versions appear in strictly ascending order. -/
theorem run_applied_chain {σ ε : Type} :
    ∀ (steps : List (Nat × (σ → Except ε σ))) (st : MigState σ),
    ((run_migrations steps st).2.1).Chain' (· < ·) := by
  intro steps
  induction steps with
  | nil => intro st; simp [run_migrations]
  | cons p rest ih =>
    intro st
    obtain ⟨v, fm⟩ := p
    rw [run_migrations]
    by_cases hv : st.schema_version < v
    · rw [if_pos hv]
      cases hd : fm st.db with
      | error e => rw [stepResult_error]; simp
      | ok d =>
        rw [stepResult_ok]
        refine List.chain'_cons'.mpr ⟨?_, ih ⟨v, d⟩⟩
        intro y hy
        exact run_applied_gt rest ⟨v, d⟩ y (List.mem_of_mem_head? hy)
    · rw [if_neg hv]
      exact ih st

/-- On a run with no failure, the committed versions are exactly the
registered versions above the entry version, in registration order. -/
theorem run_applied_complete {σ ε : Type} :
    ∀ (steps : List (Nat × (σ → Except ε σ))) (st : MigState σ),
    ((steps.map Prod.fst).Pairwise (· < ·)) →
    (run_migrations steps st).2.2 = none →
    (run_migrations steps st).2.1 =
      (steps.map Prod.fst).filter (fun w => decide (st.schema_version < w)) := by
  intro steps
  induction steps with
  | nil => intro st _ _; rfl
  | cons p rest ih =>
    intro st hsort hok
    obtain ⟨v, fm⟩ := p
    rw [run_migrations] at hok ⊢
    rw [List.map_cons] at hsort ⊢
    by_cases hv : st.schema_version < v
    · rw [if_pos hv] at hok ⊢
      cases hd : fm st.db with
      | error e =>
        rw [hd, stepResult_error] at hok
        exact absurd hok (by simp)
      | ok d =>
        rw [hd] at hok
        rw [stepResult_ok] at hok ⊢
        rw [List.filter_cons, if_pos (by simpa using hv)]
        rw [ih ⟨v, d⟩ (List.pairwise_cons.mp hsort).2 hok]
        show v :: _ = (v, fm).1 :: _
        congr 1
        apply List.filter_congr
        intro w hw
        have hvw : v < w := (List.pairwise_cons.mp hsort).1 w hw
        have hsw : st.schema_version < w := lt_trans hv hvw
        simp [hvw, hsw]
    · rw [if_neg hv] at hok ⊢
      rw [List.filter_cons, if_neg (by simpa using hv)]
      exact ih st (List.pairwise_cons.mp hsort).2 hok

/-- The final recorded version is the last committed version, or the entry
version when nothing was committed (in particular a failing step does not
advance it). -/
theorem run_version_getLastD {σ ε : Type} :
    ∀ (steps : List (Nat × (σ → Except ε σ))) (st : MigState σ),
    ((run_migrations steps st).1).schema_version =
      ((run_migrations steps st).2.1).getLastD st.schema_version := by
  intro steps
  induction steps with
  | nil => intro st; rfl
  | cons p rest ih =>
    intro st
    obtain ⟨v, fm⟩ := p
    rw [run_migrations]
    by_cases hv : st.schema_version < v
    · rw [if_pos hv]
      cases hd : fm st.db with
      | error e => rw [stepResult_error]; rfl
      | ok d =>
        rw [stepResult_ok, List.getLastD_cons]
        exact ih ⟨v, d⟩
    · rw [if_neg hv]
      exact ih st

/-- Steps at or below a version bound that the entry version already meets
are skipped: running the engine equals running only the steps above the
bound. With the bound instantiated at the failed run's committed version,
this is exactly "a retry resumes from the last successfully committed
version". -/
theorem run_skip_filter {σ ε : Type} :
    ∀ (steps : List (Nat × (σ → Except ε σ))) (st st0 : MigState σ),
    st0.schema_version ≤ st.schema_version →
    run_migrations steps st =
      run_migrations (steps.filter (fun p => decide (st0.schema_version < p.1))) st := by
  intro steps
  induction steps with
  | nil => intro st st0 _; rfl
  | cons p rest ih =>
    intro st st0 hle
    obtain ⟨v, fm⟩ := p
    by_cases hv0 : st0.schema_version < v
    · rw [List.filter_cons, if_pos (by simpa using hv0)]
      rw [run_migrations, run_migrations]
      by_cases hv : st.schema_version < v
      · rw [if_pos hv, if_pos hv]
        cases hd : fm st.db with
        | error e => rw [stepResult_error, stepResult_error]
        | ok d =>
          rw [stepResult_ok, stepResult_ok, ih ⟨v, d⟩ st0 (le_of_lt hv0)]
      · rw [if_neg hv, if_neg hv]
        exact ih st st0 hle
    · rw [List.filter_cons, if_neg (by simpa using hv0)]
      rw [run_migrations,
        if_neg (not_lt.mpr (le_trans (not_lt.mp hv0) hle))]
      exact ih st st0 hle

/-- Claim C3: with strictly increasing registered versions (as in
`_MIGRATIONS`), the engine commits versions in strictly ascending order, only
versions above the recorded one, all of them when no step raises; the final
recorded version is the last committed one — a failing step does not advance
it — and re-running the engine on the resulting state runs exactly the steps
above the committed version, so a retry resumes from the last successfully
committed version. -/
theorem migration_engine_contract {σ ε : Type}
    (steps : List (Nat × (σ → Except ε σ))) (st : MigState σ)
    (hsort : (steps.map Prod.fst).Pairwise (· < ·)) :
    ((run_migrations steps st).2.1.Chain' (· < ·))
    ∧ (∀ w ∈ (run_migrations steps st).2.1, st.schema_version < w)
    ∧ ((run_migrations steps st).2.2 = none →
        (run_migrations steps st).2.1 =
          (steps.map Prod.fst).filter (fun w => decide (st.schema_version < w)))
    ∧ ((run_migrations steps st).1.schema_version =
        (run_migrations steps st).2.1.getLastD st.schema_version)
    ∧ (run_migrations steps (run_migrations steps st).1 =
        run_migrations (steps.filter (fun p =>
          decide ((run_migrations steps st).1.schema_version < p.1)))
          (run_migrations steps st).1) :=
  ⟨run_applied_chain steps st, run_applied_gt steps st,
   fun hok => run_applied_complete steps st hsort hok,
   run_version_getLastD steps st,
   run_skip_filter steps _ _ (le_refl _)⟩

/-- Witness for C3: the concrete engine on a fresh version-0 store with one
legacy row commits exactly the versions above 0. -/
theorem migration_engine_contract_witness :
    (run_migrations (_MIGRATIONS 5)
      ⟨0, ⟨false, false, false, false, [⟨none, none, none, none, none⟩]⟩⟩).2.1
      = ((_MIGRATIONS 5).map Prod.fst).filter (fun w => decide ((0 : Nat) < w)) := by
  exact (migration_engine_contract (_MIGRATIONS 5)
    ⟨0, ⟨false, false, false, false, [⟨none, none, none, none, none⟩]⟩⟩
    (by decide)).2.2.1 (by rfl)

theorem _migration_v1_idem : ∀ s t, _migration_v1 s = .ok t → _migration_v1 t = .ok t := by
  intro s t h
  unfold _migration_v1 at h ⊢
  by_cases hs : s.has_in_progress
  · rw [if_pos hs] at h
    injection h with h
    subst h
    rw [if_pos hs]
  · rw [if_neg hs] at h
    injection h with h
    subst h
    rw [if_pos rfl]

theorem fillBoolColumns_idem (r : DbRow) :
    fillBoolColumns (fillBoolColumns r) = fillBoolColumns r := rfl

theorem _migration_v2_idem : ∀ s t, _migration_v2 s = .ok t → _migration_v2 t = .ok t := by
  intro s t h
  unfold _migration_v2 at h ⊢
  by_cases hs : s.has_in_progress
  · rw [if_pos hs] at h
    injection h with h
    subst h
    have ht : ({ s with rows := s.rows.map fillBoolColumns } :
        DbSchema).has_in_progress = true := hs
    rw [if_pos ht]
    have hrows : (s.rows.map fillBoolColumns).map fillBoolColumns
        = s.rows.map fillBoolColumns := by
      rw [List.map_map]
      apply List.map_congr_left
      intro r _
      exact fillBoolColumns_idem r
    show Except.ok { s with rows := (s.rows.map fillBoolColumns).map fillBoolColumns }
      = Except.ok { s with rows := s.rows.map fillBoolColumns }
    rw [hrows]
  · rw [if_neg hs] at h
    cases h

theorem addCreatedAtColumn_has (now : Nat) (s : DbSchema) :
    (addCreatedAtColumn now s).has_created_at = true := by
  unfold addCreatedAtColumn
  split
  · next h => exact h
  · rfl

theorem addModifiedAtColumn_has (now : Nat) (s : DbSchema) :
    (addModifiedAtColumn now s).has_modified_at = true := by
  unfold addModifiedAtColumn
  split
  · next h => exact h
  · rfl

theorem addCompletedAtColumn_has (s : DbSchema) :
    (addCompletedAtColumn s).has_completed_at = true := by
  unfold addCompletedAtColumn
  split
  · next h => exact h
  · rfl

theorem addModifiedAtColumn_keeps_created (now : Nat) (s : DbSchema) :
    (addModifiedAtColumn now s).has_created_at = s.has_created_at := by
  unfold addModifiedAtColumn
  split <;> rfl

theorem addCompletedAtColumn_keeps_created (s : DbSchema) :
    (addCompletedAtColumn s).has_created_at = s.has_created_at := by
  unfold addCompletedAtColumn
  split <;> rfl

theorem addCompletedAtColumn_keeps_modified (s : DbSchema) :
    (addCompletedAtColumn s).has_modified_at = s.has_modified_at := by
  unfold addCompletedAtColumn
  split <;> rfl

theorem addCreatedAtColumn_skip {now : Nat} {s : DbSchema}
    (h : s.has_created_at = true) : addCreatedAtColumn now s = s := by
  unfold addCreatedAtColumn
  rw [if_pos h]

theorem addModifiedAtColumn_skip {now : Nat} {s : DbSchema}
    (h : s.has_modified_at = true) : addModifiedAtColumn now s = s := by
  unfold addModifiedAtColumn
  rw [if_pos h]

theorem addCompletedAtColumn_skip {s : DbSchema}
    (h : s.has_completed_at = true) : addCompletedAtColumn s = s := by
  unfold addCompletedAtColumn
  rw [if_pos h]

theorem _migration_v3_idem : ∀ s t now3 now4,
    _migration_v3 now3 s = .ok t → _migration_v3 now4 t = .ok t := by
  intro s t now3 now4 h
  unfold _migration_v3 at h ⊢
  injection h with h
  subst h
  have hc : (addCompletedAtColumn (addModifiedAtColumn now3
      (addCreatedAtColumn now3 s))).has_created_at = true := by
    rw [addCompletedAtColumn_keeps_created, addModifiedAtColumn_keeps_created,
      addCreatedAtColumn_has]
  have hm : (addCompletedAtColumn (addModifiedAtColumn now3
      (addCreatedAtColumn now3 s))).has_modified_at = true := by
    rw [addCompletedAtColumn_keeps_modified, addModifiedAtColumn_has]
  have hd : (addCompletedAtColumn (addModifiedAtColumn now3
      (addCreatedAtColumn now3 s))).has_completed_at = true :=
    addCompletedAtColumn_has _
  rw [addCreatedAtColumn_skip hc, addModifiedAtColumn_skip hm,
    addCompletedAtColumn_skip hd]

/-- Claim C4: a second engine run against the state a successful run
produced is a no-op: the state (schema and recorded version) is returned
unchanged, no step is applied, and no error is raised; moreover each
individual registered migration step is idempotent, because it detects
whether its change is already present and skips the physical change. -/
theorem migrations_rerun_noop (st : MigState DbSchema) (now1 now2 : Nat)
    (st1 : MigState DbSchema) (ap1 : List Nat)
    (h : run_migrations (_MIGRATIONS now1) st = (st1, ap1, none)) :
    run_migrations (_MIGRATIONS now2) st1 = (st1, [], none)
    ∧ (∀ s t, _migration_v1 s = .ok t → _migration_v1 t = .ok t)
    ∧ (∀ s t, _migration_v2 s = .ok t → _migration_v2 t = .ok t)
    ∧ (∀ s t now3 now4, _migration_v3 now3 s = .ok t → _migration_v3 now4 t = .ok t) := by
  refine ⟨?_, _migration_v1_idem, _migration_v2_idem, _migration_v3_idem⟩
  obtain ⟨n, db⟩ := st
  have hv3 : 3 ≤ st1.schema_version := by
    have hgl := run_version_getLastD (_MIGRATIONS now1) ⟨n, db⟩
    have hcomp := run_applied_complete (_MIGRATIONS now1) ⟨n, db⟩
      (by rw [show (_MIGRATIONS now1).map Prod.fst = [1, 2, 3] from rfl]; decide)
      (by rw [h])
    rw [h] at hgl hcomp
    rw [show (_MIGRATIONS now1).map Prod.fst = [1, 2, 3] from rfl] at hcomp
    by_cases h3 : n < 3
    · interval_cases n
      · rw [show List.filter (fun w => decide ((⟨0, db⟩ :
            MigState DbSchema).schema_version < w)) [1, 2, 3] = [1, 2, 3]
            from rfl] at hcomp
        rw [hcomp] at hgl
        have h5 : st1.schema_version = 3 := hgl
        omega
      · rw [show List.filter (fun w => decide ((⟨1, db⟩ :
            MigState DbSchema).schema_version < w)) [1, 2, 3] = [2, 3]
            from rfl] at hcomp
        rw [hcomp] at hgl
        have h5 : st1.schema_version = 3 := hgl
        omega
      · rw [show List.filter (fun w => decide ((⟨2, db⟩ :
            MigState DbSchema).schema_version < w)) [1, 2, 3] = [3]
            from rfl] at hcomp
        rw [hcomp] at hgl
        have h5 : st1.schema_version = 3 := hgl
        omega
    · have h1 : decide ((⟨n, db⟩ : MigState DbSchema).schema_version < 1) = false := by
        simp only [decide_eq_false_iff_not]
        show ¬ n < 1
        omega
      have h2 : decide ((⟨n, db⟩ : MigState DbSchema).schema_version < 2) = false := by
        simp only [decide_eq_false_iff_not]
        show ¬ n < 2
        omega
      have h3f : decide ((⟨n, db⟩ : MigState DbSchema).schema_version < 3) = false := by
        simp only [decide_eq_false_iff_not]
        show ¬ n < 3
        omega
      simp only [List.filter_cons, h1, h2, h3f, Bool.false_eq_true, if_false,
        List.filter_nil] at hcomp
      rw [hcomp] at hgl
      have h5 : st1.schema_version = n := hgl
      omega
  apply run_skip_all
  intro p hp
  simp only [_MIGRATIONS, List.mem_cons, List.not_mem_nil, or_false] at hp
  rcases hp with rfl | rfl | rfl
  · show (1 : Nat) ≤ st1.schema_version
    omega
  · show (2 : Nat) ≤ st1.schema_version
    omega
  · show (3 : Nat) ≤ st1.schema_version
    omega

/-- Witness for C4: a concrete version-0 store with one fully legacy row;
after the first run the second run returns the state untouched with no
applied steps. -/
theorem migrations_rerun_noop_witness :
    run_migrations (_MIGRATIONS 9)
      ⟨3, ⟨true, true, true, true,
        [⟨some false, some false, some 5, some 5, none⟩]⟩⟩
      = (⟨3, ⟨true, true, true, true,
          [⟨some false, some false, some 5, some 5, none⟩]⟩⟩, [], none) := by
  exact (migrations_rerun_noop
    ⟨0, ⟨false, false, false, false, [⟨none, none, none, none, none⟩]⟩⟩ 5 9
    ⟨3, ⟨true, true, true, true,
      [⟨some false, some false, some 5, some 5, none⟩]⟩⟩ [1, 2, 3]
    (by decide)).1

end FeatureDashboard
